import Mathlib

/-!
Verification of the core interpretation/safety pipeline of the `smart-git`
CLI (Go).  The Go sources are shallowly embedded: Go strings become Lean
`String`s (lists of characters), the byte/rune loops of the Go standard
library helpers (`strings.TrimSpace`, `strings.ToLower`, `strings.Contains`,
`strings.HasPrefix`, `strings.Trim`, `strings.Index`) are reproduced as
executable functions, and the interactive/IO steps are modelled as pure
functions of the values that the Go code reads (the typed confirmation
line, the parsed model reply, ...).  All patterns matched by the code are
ASCII, so the byte-level scans of the Go code coincide with the
character-level scans used here.
-/

namespace SmartGit

/-! ## Go standard-library string helpers -/

/-- Character class used by Go's `strings.TrimSpace` (`unicode.IsSpace`),
restricted to the Latin-1 range; the full Unicode space category is not
needed by any pattern in this code base. -/
def goIsSpace (c : Char) : Bool :=
  c = ' ' || c = '\t' || c = '\n' || c = '\r' ||
  c.toNat = 11 || c.toNat = 12 || c.toNat = 133 || c.toNat = 160

/-- Drop the maximal trailing run of characters satisfying `p`. -/
def dropTrailingWhile (p : Char → Bool) : List Char → List Char
  | [] => []
  | x :: xs =>
    let r := dropTrailingWhile p xs
    if p x && r.isEmpty then [] else x :: r

/-- Go `strings.TrimSpace`. -/
def goTrimSpace (s : String) : String :=
  ⟨dropTrailingWhile goIsSpace (s.data.dropWhile goIsSpace)⟩

/-- Go `strings.ToLower` (ASCII case mapping; all patterns compared against
lowered text in this code base are ASCII). -/
def goToLower (s : String) : String :=
  ⟨s.data.map Char.toLower⟩

/-- Go `strings.Contains hay pat` as a scan over characters. -/
def containsSub (hay pat : List Char) : Bool :=
  match hay with
  | [] => pat.isEmpty
  | _ :: t => pat.isPrefixOf hay || containsSub t pat

/-- Go `strings.Trim s "-"` and friends: trim a single character from both
ends. -/
def trimCharBoth (c : Char) (l : List Char) : List Char :=
  dropTrailingWhile (· = c) (l.dropWhile (· = c))

/-! ## `ai.RiskLevel` (internal/ai/gemini.go)

Go declares `type RiskLevel string` with three named constants; arbitrary
string values (in particular `""`) inhabit the type, so the embedding keeps
risks as `String`. -/

def riskLow : String := "low"

def riskMedium : String := "medium"

def riskHigh : String := "high"

/-- Rank of a risk value in the total order Low < Medium < High. -/
def riskRank (r : String) : Nat :=
  if r = riskHigh then 2 else if r = riskMedium then 1 else 0

/-! ## `normalizeRisk` (internal/commands/command_suggest.go) -/

/-- The hard-coded destructive patterns of `normalizeRisk`. -/
def dangerousPatterns : List String :=
  ["rm -rf /", "rm -rf /*", ":()\x7b:|:&\x7d;:", "mkfs", "dd if=", "mklabel gpt"]

/-- The hard-coded state-mutating command beginnings of `normalizeRisk`. -/
def modifyingPrefixes : List String :=
  ["rm ", "mv ", "cp ", "sudo ", "chmod ", "chown ",
   "git reset", "git push", "git rebase", "git checkout"]

/-- Function `normalizeRisk` from internal/commands/command_suggest.go: the safety
overlay on the model-reported risk. -/
def normalizeRisk (cmd : String) (aiRisk : String) : String :=
  let cmdLower := goToLower cmd
  if dangerousPatterns.any (fun p => containsSub cmdLower.data p.data) then
    riskHigh
  else if aiRisk = riskLow &&
      modifyingPrefixes.any (fun p => p.data.isPrefixOf cmdLower.data) then
    riskMedium
  else if aiRisk = "" then
    riskLow
  else
    aiRisk

example : normalizeRisk "sudo rm -rf / --no-preserve-root" "low" = "high" := by decide

example : normalizeRisk "rm old.txt" "low" = "medium" := by decide

example : normalizeRisk "ls -la" "" = "low" := by decide

example : normalizeRisk "ls -la" "weird" = "weird" := by decide

/-- Claim C1: for every command string and every model-reported risk,
`normalizeRisk` computes its result by exactly this case analysis on the
lowercased command: if the command contains a destructive pattern the result
is High regardless of the reported risk; otherwise if the reported risk is
Low and the command begins with a state-mutating beginning the result is
Medium; otherwise an empty reported risk yields Low; otherwise the reported
risk is returned unchanged. -/
theorem normalizeRisk_case_analysis (cmd risk : String) :
    normalizeRisk cmd risk =
      if ∃ p ∈ dangerousPatterns, containsSub (goToLower cmd).data p.data = true then
        riskHigh
      else if risk = riskLow ∧
          ∃ p ∈ modifyingPrefixes, p.data.isPrefixOf (goToLower cmd).data = true then
        riskMedium
      else if risk = "" then
        riskLow
      else
        risk := by
  simp only [normalizeRisk, Bool.and_eq_true, decide_eq_true_eq, List.any_eq_true]

/-- Claim C3: the safety overlay never downgrades risk: for every command
and every reported risk among Low, Medium, High, the normalized risk is at
least the reported risk in the order Low < Medium < High. -/
theorem normalizeRisk_never_downgrades (cmd risk : String)
    (h : risk = riskLow ∨ risk = riskMedium ∨ risk = riskHigh) :
    riskRank risk ≤ riskRank (normalizeRisk cmd risk) := by
  unfold normalizeRisk
  rcases h with h | h | h <;> subst h <;>
    split_ifs <;> simp_all [riskRank, riskLow, riskMedium, riskHigh]
  split <;> simp_all

/-- Witness for C3 at a concrete command and risk. -/
theorem normalizeRisk_never_downgrades_witness :
    riskRank "low" ≤ riskRank (normalizeRisk "git push --force" "low") :=
  normalizeRisk_never_downgrades "git push --force" "low" (Or.inl rfl)

/-! ## `ai.SuggestedCommand` and the execution gate
(`runSuggestedCommand`, internal/commands/command_suggest.go) -/

/-- Structure `ai.SuggestedCommand` from internal/ai/gemini.go. -/
structure SuggestedCommand where
  command : String
  description : String
  risk : String
  reason : String
  tags : List String
deriving DecidableEq, Repr

/-- Outcome of `runSuggestedCommand`: it returns an error when the trimmed
command is empty, cancels High-risk commands without the typed affirmative,
and otherwise hands the command string to the external shell. -/
inductive ExecOutcome where
  | errorNoCommand
  | cancelled
  | executed (cmd : String)
deriving DecidableEq, Repr

/-- Function `runSuggestedCommand` from internal/commands/command_suggest.go,
modelled as a pure function of the suggestion and of the confirmation line
that the Go code reads from stdin in the High-risk branch (the line is
unread and irrelevant in the other branches).  `executed c` stands for
reaching the `exec.CommandContext(shell, "-c", c)` launch. -/
def runSuggestedCommand (suggestion : SuggestedCommand) (confirmInput : String) :
    ExecOutcome :=
  let cmdStr := goTrimSpace suggestion.command
  if cmdStr = "" then
    ExecOutcome.errorNoCommand
  else if suggestion.risk = riskHigh then
    if goToLower (goTrimSpace confirmInput) = "yes" then
      ExecOutcome.executed cmdStr
    else
      ExecOutcome.cancelled
  else
    ExecOutcome.executed cmdStr

/-- The auto-accept path of `runCommandSuggest`: the top suggestion's risk
is normalized by the safety overlay and the result goes straight to
`runSuggestedCommand` (no `AwaitingChoice` interaction). -/
def autoAcceptRun (primary : SuggestedCommand) (confirmInput : String) : ExecOutcome :=
  runSuggestedCommand
    { primary with risk := normalizeRisk primary.command primary.risk }
    confirmInput

/-- Claim C2: for a High-risk suggestion the external command is launched
only when the confirmation input, trimmed and lowercased, is literally
"yes"; any other input cancels (or errors on an empty command) without
launching; and the same gate holds on the auto-accept path whenever the
normalized risk of the top suggestion is High. -/
theorem highRisk_confirmation_gate (s : SuggestedCommand) (input : String)
    (hrisk : s.risk = riskHigh) :
    (∀ c, runSuggestedCommand s input = ExecOutcome.executed c →
        goToLower (goTrimSpace input) = "yes")
  ∧ (goToLower (goTrimSpace input) ≠ "yes" → goTrimSpace s.command ≠ "" →
        runSuggestedCommand s input = ExecOutcome.cancelled)
  ∧ (∀ s2 : SuggestedCommand, ∀ input2 : String,
        normalizeRisk s2.command s2.risk = riskHigh →
        goToLower (goTrimSpace input2) ≠ "yes" →
        ∀ c, autoAcceptRun s2 input2 ≠ ExecOutcome.executed c) := by
  refine ⟨?_, ?_, ?_⟩
  · intro c h
    unfold runSuggestedCommand at h
    simp only [hrisk] at h
    split_ifs at h with h1 h2
    · exact h2
  · intro hno hcmd
    unfold runSuggestedCommand
    simp only [hrisk]
    split_ifs <;> simp_all
  · intro s2 input2 hnorm hno c h
    unfold autoAcceptRun runSuggestedCommand at h
    simp only [hnorm] at h
    split_ifs at h

/-- Witness for C2: a concrete High-risk suggestion with a non-affirmative
confirmation line is cancelled. -/
theorem highRisk_confirmation_gate_witness :
    runSuggestedCommand ⟨"rm -rf build", "", "high", "", []⟩ "no" =
      ExecOutcome.cancelled :=
  (highRisk_confirmation_gate ⟨"rm -rf build", "", "high", "", []⟩ "no" rfl).2.1
    (by decide) (by decide)

/-! ## `extractJSONBlock` (internal/ai/gemini.go) -/

/-- Depth contribution of one character in the brace-matching loop. -/
def braceDelta (c : Char) : Int :=
  if c = '{' then 1 else if c = '}' then -1 else 0

/-- Total brace depth of a character list. -/
def depthSum (l : List Char) : Int :=
  (l.map braceDelta).sum

/-- The suffix of the text from the first opening brace on
(`strings.Index(s, "{")` plus slicing, in Go); `none` when there is no
opening brace (Go's `-1`). -/
def dropUntilBrace : List Char → Option (List Char)
  | [] => none
  | c :: rest => if c = '{' then some (c :: rest) else dropUntilBrace rest

/-- The depth-counting loop of `extractJSONBlock`: increment on every
opening brace, decrement on every closing brace; stop (second component
`true`) right after the closing brace at which the depth returns to zero.
The first component is the consumed span — the whole remaining text when
the depth never returns to zero, matching Go's fall-through
`return s[start:]`. -/
def scanFrom (depth : Int) : List Char → List Char × Bool
  | [] => ([], false)
  | c :: rest =>
    let d := depth + braceDelta c
    if c = '}' ∧ d = 0 then
      ([c], true)
    else
      let r := scanFrom d rest
      (c :: r.1, r.2)

/-- Function `extractJSONBlock` from internal/ai/gemini.go. -/
def extractJSONBlock (s : String) : String :=
  match dropUntilBrace s.data with
  | none => ""
  | some suffix => ⟨(scanFrom 0 suffix).1⟩

example : extractJSONBlock "ab\x7bc\x7bd\x7de\x7d tail" = "\x7bc\x7bd\x7de\x7d" := by
  decide

example : extractJSONBlock "no object here" = "" := by decide

example : extractJSONBlock "text \x7b unbalanced" = "\x7b unbalanced" := by decide

/-- A balanced object span: non-empty, starts with an opening brace, total
brace depth zero, and every proper non-empty leading part has positive
depth, i.e. the depth counter first returns to zero exactly at the end of
the span. -/
def IsBalancedSpan (B : List Char) : Prop :=
  B ≠ [] ∧ B.head? = some '{' ∧ depthSum B = 0 ∧
  ∀ n, n < B.length → n ≠ 0 → 0 < depthSum (B.take n)

instance (B : List Char) : Decidable (IsBalancedSpan B) := by
  unfold IsBalancedSpan
  infer_instance

lemma depthSum_nil : depthSum [] = 0 := rfl

lemma depthSum_cons (c : Char) (l : List Char) :
    depthSum (c :: l) = braceDelta c + depthSum l := by
  simp [depthSum]

lemma braceDelta_open : braceDelta '{' = 1 := by decide

lemma braceDelta_bounds (c : Char) : -1 ≤ braceDelta c ∧ braceDelta c ≤ 1 := by
  unfold braceDelta
  split_ifs <;> omega

lemma braceDelta_eq_neg_one (c : Char) : braceDelta c = -1 ↔ c = '}' := by
  unfold braceDelta
  split_ifs with h1 h2 <;> simp_all

/-- Core lemma on the scanning loop: on a span whose depth, started from
`d`, is strictly positive on every proper leading part and zero exactly at
the end, the loop consumes exactly the span and reports success, whatever
text follows. -/
lemma scanFrom_balanced (B : List Char) : ∀ (d : Int) (t : List Char),
    B ≠ [] → d + depthSum B = 0 →
    (∀ p, p <+: B → p ≠ B → 0 < d + depthSum p) →
    scanFrom d (B ++ t) = (B, true) := by
  induction B with
  | nil => intro d t h; exact absurd rfl h
  | cons c B' ih =>
    intro d t _ hsum hpre
    by_cases hB' : B' = []
    · subst hB'
      have hd : 0 < d := by
        have h0 := hpre [] List.nil_prefix (by simp)
        simpa [depthSum_nil] using h0
      have hc : braceDelta c = -d := by
        rw [depthSum_cons, depthSum_nil] at hsum
        omega
      have hb := braceDelta_bounds c
      have hcb : c = '}' := (braceDelta_eq_neg_one c).mp (by omega)
      have hd1 : d = 1 := by omega
      subst hd1
      subst hcb
      have hcond : ('}' = '}' ∧ (1 : Int) + braceDelta '}' = 0) := by
        refine ⟨rfl, by decide⟩
      simp [scanFrom, hcond]
    · have hne1 : [c] ≠ c :: B' := by
        intro hx
        apply hB'
        injection hx with _ h2
        exact h2.symm
      have hcond : ¬(c = '}' ∧ d + braceDelta c = 0) := by
        rintro ⟨-, hzero⟩
        have h1 := hpre [c] ⟨B', rfl⟩ hne1
        rw [depthSum_cons, depthSum_nil] at h1
        omega
      have hrec : scanFrom (d + braceDelta c) (B' ++ t) = (B', true) := by
        apply ih
        · exact hB'
        · rw [depthSum_cons] at hsum
          omega
        · intro p hp hne
          have hpc : (c :: p) <+: (c :: B') := List.cons_prefix_cons.mpr ⟨rfl, hp⟩
          have hnec : c :: p ≠ c :: B' := by
            intro hx
            apply hne
            injection hx
          have h2 := hpre (c :: p) hpc hnec
          rw [depthSum_cons] at h2
          omega
      rw [List.cons_append]
      simp only [scanFrom, if_neg hcond]
      rw [hrec]

/-- When the loop never reports success, it has consumed the whole text. -/
lemma scanFrom_not_found (l : List Char) : ∀ d : Int,
    (scanFrom d l).2 = false → (scanFrom d l).1 = l := by
  induction l with
  | nil => intro d _; rfl
  | cons c rest ih =>
    intro d h
    by_cases hc : c = '}' ∧ d + braceDelta c = 0
    · obtain ⟨hc1, hc2⟩ := hc
      subst hc1
      simp [scanFrom, hc2] at h
    · simp only [scanFrom, if_neg hc] at h ⊢
      rw [ih (d + braceDelta c) h]

/-- The scanning loop consumes at least one character. -/
lemma scanFrom_ne_nil (c : Char) (rest : List Char) (d : Int) :
    (scanFrom d (c :: rest)).1 ≠ [] := by
  by_cases hc : c = '}' ∧ d + braceDelta c = 0
  · obtain ⟨hc1, hc2⟩ := hc
    subst hc1
    simp [scanFrom, hc2]
  · simp [scanFrom, hc]

lemma dropUntilBrace_eq_none_iff (l : List Char) :
    dropUntilBrace l = none ↔ '{' ∉ l := by
  induction l with
  | nil => simp [dropUntilBrace]
  | cons c rest ih =>
    by_cases hc : c = '{'
    · subst hc
      simp [dropUntilBrace]
    · have hc' : ¬('{' = c) := fun h => hc h.symm
      simp [dropUntilBrace, hc, hc', ih]

lemma dropUntilBrace_append_of_not_mem (pre l : List Char) (h : '{' ∉ pre) :
    dropUntilBrace (pre ++ l) = dropUntilBrace l := by
  induction pre with
  | nil => rfl
  | cons c rest ih =>
    simp only [List.mem_cons, not_or] at h
    simp only [List.cons_append, dropUntilBrace,
      if_neg (fun hc => h.1 (Eq.symm hc))]
    exact ih h.2

lemma dropUntilBrace_head (l suffix : List Char)
    (h : dropUntilBrace l = some suffix) : ∃ rest, suffix = '{' :: rest := by
  induction l with
  | nil => simp [dropUntilBrace] at h
  | cons c restl ih =>
    by_cases hc : c = '{'
    · subst hc
      simp [dropUntilBrace] at h
      exact ⟨restl, h.symm⟩
    · simp only [dropUntilBrace, if_neg hc] at h
      exact ih h

lemma extractJSONBlock_eq_of_drop (s : String) (suffix : List Char)
    (h : dropUntilBrace s.data = some suffix) :
    extractJSONBlock s = ⟨(scanFrom 0 suffix).1⟩ := by
  unfold extractJSONBlock
  rw [h]

lemma extractJSONBlock_eq_of_none (s : String)
    (h : dropUntilBrace s.data = none) : extractJSONBlock s = "" := by
  unfold extractJSONBlock
  rw [h]

/-- Claim C4: `extractJSONBlock` returns the empty string exactly when the
input has no opening brace; on an input made of brace-free text, a balanced
object span and arbitrary trailing content it returns exactly the span;
and when the depth counter never returns to zero it returns the suffix from
the first opening brace to the end of the string. -/
theorem extractJSONBlock_spec :
    (∀ s : String, extractJSONBlock s = "" ↔ '{' ∉ s.data)
  ∧ (∀ pre B t : List Char, '{' ∉ pre → IsBalancedSpan B →
        extractJSONBlock ⟨pre ++ B ++ t⟩ = ⟨B⟩)
  ∧ (∀ (s : String) (suffix : List Char), dropUntilBrace s.data = some suffix →
        (scanFrom 0 suffix).2 = false → extractJSONBlock s = ⟨suffix⟩) := by
  refine ⟨?_, ?_, ?_⟩
  · intro s
    rcases hdrop : dropUntilBrace s.data with _ | suffix
    · simp [extractJSONBlock_eq_of_none s hdrop,
        (dropUntilBrace_eq_none_iff s.data).mp hdrop]
    · obtain ⟨rest, hsuf⟩ := dropUntilBrace_head s.data suffix hdrop
      subst hsuf
      rw [extractJSONBlock_eq_of_drop s _ hdrop]
      have hne := scanFrom_ne_nil '{' rest 0
      constructor
      · intro hmk
        exact absurd (congrArg String.data hmk) hne
      · intro hnot
        have hnone : dropUntilBrace s.data = none :=
          (dropUntilBrace_eq_none_iff s.data).mpr hnot
        rw [hdrop] at hnone
        exact absurd hnone (by simp)
  · intro pre B t hpre hB
    obtain ⟨hne, hhead, hzero, hpos⟩ := hB
    obtain ⟨B₁, rfl⟩ : ∃ B₁, B = '{' :: B₁ := by
      cases B with
      | nil => exact absurd rfl hne
      | cons b B₁ =>
        simp only [List.head?] at hhead
        exact ⟨B₁, by rw [Option.some_inj.mp hhead]⟩
    have hdata : (⟨pre ++ ('{' :: B₁) ++ t⟩ : String).data =
        pre ++ ('{' :: (B₁ ++ t)) := by
      simp
    have hdrop : dropUntilBrace (⟨pre ++ ('{' :: B₁) ++ t⟩ : String).data =
        some ('{' :: (B₁ ++ t)) := by
      rw [hdata, dropUntilBrace_append_of_not_mem pre _ hpre]
      simp [dropUntilBrace]
    rw [extractJSONBlock_eq_of_drop _ _ hdrop]
    have hstep : scanFrom 0 ('{' :: (B₁ ++ t)) =
        ('{' :: (scanFrom 1 (B₁ ++ t)).1, (scanFrom 1 (B₁ ++ t)).2) := by
      simp [scanFrom, braceDelta]
    have hB₁ : B₁ ≠ [] := by
      rintro rfl
      rw [depthSum_cons, depthSum_nil, braceDelta_open] at hzero
      omega
    have hrec : scanFrom 1 (B₁ ++ t) = (B₁, true) := by
      apply scanFrom_balanced B₁ 1 t hB₁
      · rw [depthSum_cons, braceDelta_open] at hzero
        omega
      · intro p hp hne2
        have hlen : p.length < B₁.length := by
          rcases lt_or_eq_of_le hp.length_le with h | h
          · exact h
          · exact absurd (hp.eq_of_length h) hne2
        have htake : ('{' :: B₁).take (p.length + 1) = '{' :: p := by
          simp only [List.take_succ_cons]
          rw [← List.prefix_iff_eq_take.mp hp]
        have h3 := hpos (p.length + 1) (by simpa using Nat.succ_lt_succ hlen)
          (Nat.succ_ne_zero _)
        rw [htake, depthSum_cons, braceDelta_open] at h3
        omega
    rw [hstep, hrec]
  · intro s suffix hdrop hfalse
    rw [extractJSONBlock_eq_of_drop s suffix hdrop,
      scanFrom_not_found suffix 0 hfalse]

/-- Witness for C4: the balanced-span conjunct applied at a concrete reply
with leading prose and trailing content. -/
theorem extractJSONBlock_spec_witness :
    extractJSONBlock ⟨"ok ".data ++ "\x7b(a)\x7bb\x7dc\x7d".data ++ " tail".data⟩ =
      (⟨"\x7b(a)\x7bb\x7dc\x7d".data⟩ : String) :=
  extractJSONBlock_spec.2.1 "ok ".data "\x7b(a)\x7bb\x7dc\x7d".data " tail".data
    (by decide) (by decide)

/-! ## The normalization tail of `SuggestCommands` (internal/ai/gemini.go) -/

/-- One iteration of the normalization loop of `SuggestCommands`: `none`
when the candidate's command is blank after trimming (the entry is
dropped), otherwise the trimmed entry with its risk text coerced into the
closed risk enum. -/
def normalizeEntry (s : SuggestedCommand) : Option SuggestedCommand :=
  let cmd := goTrimSpace s.command
  if cmd = "" then
    none
  else
    let risk0 := goToLower (goTrimSpace s.risk)
    let risk1 := if risk0 = "" then riskLow else risk0
    let risk2 :=
      if risk1 = riskLow ∨ risk1 = riskMedium ∨ risk1 = riskHigh then risk1
      else riskMedium
    some
      { command := cmd
        description := goTrimSpace s.description
        risk := risk2
        reason := goTrimSpace s.reason
        tags := s.tags }

/-- The normalization/filter tail of `SuggestCommands`: the loop over
`envelope.Commands` followed by the final emptiness check.  `Except.error`
corresponds to the Go error return. -/
def normalizeSuggestions (envelope : List SuggestedCommand) :
    Except String (List SuggestedCommand) :=
  let suggestions := envelope.filterMap normalizeEntry
  if suggestions = [] then
    Except.error "Gemini returned no usable command suggestions"
  else
    Except.ok suggestions

example :
    normalizeSuggestions
      [⟨"  ", "blank", "low", "", []⟩, ⟨" git status ", "show status", "LOW ", "", []⟩] =
      Except.ok [⟨"git status", "show status", "low", "", []⟩] := rfl

/-- Claim C5: the normalization step drops exactly the entries whose
command is blank after trimming; every kept entry's risk text is trimmed
and lowercased, an empty value maps to Low and an unrecognized non-empty
value maps to Medium; and the operation errors exactly when every entry is
dropped (so a blank entry plus a valid entry yields exactly the normalized
valid entry). -/
theorem normalizeSuggestions_spec :
    (∀ s, normalizeEntry s = none ↔ goTrimSpace s.command = "")
  ∧ (∀ s out, normalizeEntry s = some out →
        out.command = goTrimSpace s.command ∧
        out.risk =
          (if goToLower (goTrimSpace s.risk) = "" then riskLow
           else if goToLower (goTrimSpace s.risk) = riskLow ∨
              goToLower (goTrimSpace s.risk) = riskMedium ∨
              goToLower (goTrimSpace s.risk) = riskHigh then
             goToLower (goTrimSpace s.risk)
           else riskMedium))
  ∧ (∀ env, (∃ e, normalizeSuggestions env = Except.error e) ↔
        ∀ s ∈ env, goTrimSpace s.command = "")
  ∧ (∀ b v out, goTrimSpace b.command = "" → normalizeEntry v = some out →
        normalizeSuggestions [b, v] = Except.ok [out]) := by
  have hdrop : ∀ s, normalizeEntry s = none ↔ goTrimSpace s.command = "" := by
    intro s
    simp only [normalizeEntry]
    split_ifs with h <;> simp [h]
  refine ⟨hdrop, ?_, ?_, ?_⟩
  · intro s out h
    simp only [normalizeEntry] at h
    split_ifs at h with h1 h2 h3
    all_goals
      simp only [Option.some_inj] at h
      subst h
      simp_all [riskLow, riskMedium, riskHigh]
  · intro env
    simp only [normalizeSuggestions]
    split_ifs with h
    · simp only [List.filterMap_eq_nil_iff] at h
      constructor
      · intro _ s hs
        exact (hdrop s).mp (h s hs)
      · intro _
        exact ⟨_, rfl⟩
    · constructor
      · rintro ⟨e, he⟩
        exact absurd he (by simp)
      · intro hall
        exact absurd (List.filterMap_eq_nil_iff.mpr
          (fun s hs => (hdrop s).mpr (hall s hs))) h
  · intro b v out hb hv
    have hbnone : normalizeEntry b = none := (hdrop b).mpr hb
    simp only [normalizeSuggestions]
    simp [List.filterMap_cons, hbnone, hv]

/-- Witness for C5: the two-entry conjunct at a concrete envelope. -/
theorem normalizeSuggestions_spec_witness :
    normalizeSuggestions
      [⟨" ", "", "", "", []⟩, ⟨"git log", "", "", "", []⟩] =
      Except.ok [⟨"git log", "", "low", "", []⟩] :=
  normalizeSuggestions_spec.2.2.2 ⟨" ", "", "", "", []⟩ ⟨"git log", "", "", "", []⟩
    ⟨"git log", "", "low", "", []⟩ (by decide) rfl

/-- Claim C9: whenever the normalization tail of `SuggestCommands` returns
without error, the suggestion list is non-empty, so the interaction layer's
unconditional `suggestions[0]` access never indexes an empty list. -/
theorem normalizeSuggestions_ok_nonempty (env : List SuggestedCommand)
    (l : List SuggestedCommand) (h : normalizeSuggestions env = Except.ok l) :
    l ≠ [] ∧ l.head? ≠ none := by
  simp only [normalizeSuggestions] at h
  split_ifs at h with hempty
  simp only [Except.ok.injEq] at h
  subst h
  refine ⟨hempty, ?_⟩
  cases henv : env.filterMap normalizeEntry with
  | nil => exact absurd henv hempty
  | cons a t => simp [henv]

/-- Witness for C9 at a concrete envelope. -/
theorem normalizeSuggestions_ok_nonempty_witness :
    ([⟨"git status", "", "low", "", []⟩] : List SuggestedCommand) ≠ [] ∧
      ([⟨"git status", "", "low", "", []⟩] : List SuggestedCommand).head? ≠ none :=
  normalizeSuggestions_ok_nonempty [⟨" git status ", "", "low", "", []⟩]
    [⟨"git status", "", "low", "", []⟩] rfl

/-! ## The commit flow (internal/commands/command_suggest.go: `runCommit`,
`isProtectedBranch`, `deriveBranchNameFromCommit`, `slugify`) -/

/-- Function `isProtectedBranch` from internal/commands/command_suggest.go. -/
def isProtectedBranch (name : String) : Bool :=
  let n := goToLower (goTrimSpace name)
  n = "main" || n = "master" || n = "develop" || n = "dev"

/-- The rune loop of `slugify`: keep lowercase ASCII alphanumerics, write a
single dash for every run of other characters (`lastDash` is Go's flag). -/
def slugifyCore : List Char → Bool → List Char
  | [], _ => []
  | c :: rest, lastDash =>
    if ('a' ≤ c ∧ c ≤ 'z') ∨ ('0' ≤ c ∧ c ≤ '9') then
      c :: slugifyCore rest false
    else if lastDash then
      slugifyCore rest true
    else
      '-' :: slugifyCore rest true

/-- Function `slugify` from internal/commands/command_suggest.go: lowercase, trim,
run the rune loop, then trim dashes from both ends
(`strings.Trim(b.String(), "-")`). -/
def slugify (s : String) : String :=
  ⟨trimCharBoth '-' (slugifyCore (goToLower (goTrimSpace s)).data false)⟩

/-- Function `mapCommitTypeToBranchCategory` from
internal/commands/command_suggest.go. -/
def mapCommitTypeToBranchCategory (t : String) : String :=
  if t = "feat" then "feature"
  else if t = "fix" then "fix"
  else if t = "refactor" then "refactor"
  else if t = "perf" then "perf"
  else if t = "style" then "style"
  else if t = "test" then "test"
  else if t = "docs" then "docs"
  else if t = "build" then "build"
  else if t = "ops" then "ops"
  else if t = "chore" then "chore"
  else if t = "revert" then "revert"
  else "feature"

/-- Split at the first occurrence of `c` (Go `strings.Index` plus slicing);
`none` when `c` does not occur. -/
def splitAtFirst (c : Char) : List Char → Option (List Char × List Char)
  | [] => none
  | x :: xs =>
    if x = c then some ([], xs)
    else (splitAtFirst c xs).map (fun p => (x :: p.1, p.2))

/-- The type-token extraction of `deriveBranchNameFromCommit`: text before
the colon, minus a trailing breaking-change `!`, cut at an optional
parenthesized scope, trimmed and lowercased. -/
def deriveTypePart (beforeColon : List Char) : String :=
  let pfx := goTrimSpace ⟨beforeColon⟩
  let pfx :=
    if pfx.data.getLast? = some '!' then goTrimSpace ⟨pfx.data.dropLast⟩
    else pfx
  let typePart :=
    match splitAtFirst '(' pfx.data with
    | none => pfx
    | some (beforeParen, _) => (⟨beforeParen⟩ : String)
  goToLower (goTrimSpace typePart)

/-- The slug computation of `deriveBranchNameFromCommit` for the text after
the colon: slugify, cap at 40 characters, fall back to "changes" when
empty. -/
def deriveDescSlug (afterColon : List Char) : String :=
  let descSlug := slugify (goTrimSpace ⟨afterColon⟩)
  let descSlug :=
    if 40 < descSlug.length then (⟨descSlug.data.take 40⟩ : String) else descSlug
  if descSlug = "" then "changes" else descSlug

/-- Function `deriveBranchNameFromCommit`, split into the category and slug parts
that the Go code joins with `/` at each of its three return points. -/
def deriveBranchParts (header : String) : String × String :=
  let header := goTrimSpace header
  if header = "" then
    ("feature", "changes")
  else
    match splitAtFirst ':' header.data with
    | none => ("feature", slugify header)
    | some (beforeColon, afterColon) =>
      (mapCommitTypeToBranchCategory (deriveTypePart beforeColon),
        deriveDescSlug afterColon)

/-- Function `deriveBranchNameFromCommit` from
internal/commands/command_suggest.go. -/
def deriveBranchNameFromCommit (header : String) : String :=
  (deriveBranchParts header).1 ++ "/" ++ (deriveBranchParts header).2

/-- Claim C8: the three fixed examples of the branch-name deriver. -/
theorem deriveBranchName_examples :
    deriveBranchNameFromCommit "feat(auth): add login flow" = "feature/add-login-flow"
  ∧ deriveBranchNameFromCommit "fix: resolve race condition in worker pool!!" =
      "fix/resolve-race-condition-in-worker-pool"
  ∧ deriveBranchNameFromCommit "" = "feature/changes" :=
  ⟨rfl, rfl, rfl⟩

/-- The protected-branch diversion step of `runCommit`: `none` when no
branch is created, `some name` when `CreateAndCheckoutBranch` is invoked
with `name`.  `rawBranchName` is `analysis.BranchName` (trimmed by the Go
code right after parsing), `commitMessage` the already-trimmed message. -/
def commitBranchAction (currentBranch rawBranchName commitMessage : String) :
    Option String :=
  let branchName := goTrimSpace rawBranchName
  if isProtectedBranch currentBranch then
    some (if branchName = "" then deriveBranchNameFromCommit commitMessage
          else branchName)
  else
    none

/-- Claim C10: branch diversion happens exactly when the trimmed,
lowercased current branch is main, master, develop or dev; a non-empty
trimmed model-supplied branch name is then used verbatim (the deriver and
its category/slug normalization run only when the supplied name is empty),
so a model-supplied name is not required to satisfy the BranchName shape. -/
theorem commitBranchAction_spec (cur mb msg : String) :
    (commitBranchAction cur mb msg ≠ none ↔
        goToLower (goTrimSpace cur) = "main" ∨
        goToLower (goTrimSpace cur) = "master" ∨
        goToLower (goTrimSpace cur) = "develop" ∨
        goToLower (goTrimSpace cur) = "dev")
  ∧ (goTrimSpace mb ≠ "" → isProtectedBranch cur = true →
        commitBranchAction cur mb msg = some (goTrimSpace mb))
  ∧ (goTrimSpace mb = "" → isProtectedBranch cur = true →
        commitBranchAction cur mb msg = some (deriveBranchNameFromCommit msg)) := by
  refine ⟨?_, ?_, ?_⟩
  · constructor
    · intro hne
      by_contra hnor
      simp only [not_or] at hnor
      have hprot : isProtectedBranch cur = false := by
        simp [isProtectedBranch, hnor.1, hnor.2.1, hnor.2.2.1, hnor.2.2.2]
      simp [commitBranchAction, hprot] at hne
    · intro hor
      have hprot : isProtectedBranch cur = true := by
        rcases hor with h1 | h1 | h1 | h1 <;> simp [isProtectedBranch, h1]
      simp [commitBranchAction, hprot]
  · intro hmb hprot
    simp [commitBranchAction, hprot, hmb]
  · intro hmb hprot
    simp [commitBranchAction, hprot, hmb]

/-- Witness for C10: on branch "main" with the ill-formed model-supplied
name " My Branch!! ", the trimmed name is used verbatim. -/
theorem commitBranchAction_spec_witness :
    commitBranchAction "main" " My Branch!! " "feat: x" = some "My Branch!!" :=
  (commitBranchAction_spec "main" " My Branch!! " "feat: x").2.1
    (by decide) (by decide)

/-- Outcome of the commit flow after the AI analysis returns: `aborted` is
the privacy-prompt decline (reached before any staging, committing or
branch creation, so the repository is unmutated); `committed prompted
branch` records that the flow went on to stage and commit, whether the
privacy prompt was shown, and which branch (if any) was created first. -/
inductive CommitOutcome where
  | aborted
  | committed (prompted : Bool) (newBranch : Option String)
deriving DecidableEq, Repr

/-- The privacy gate and mutation tail of `runCommit`
(internal/commands/command_suggest.go), as a pure function of the parsed
analysis fields and of the answer line read at the privacy prompt (unread
when no prompt is shown).  `message` is the already-trimmed commit
message. -/
def runCommitFlow (privacyRisk answer currentBranch rawBranchName message : String) :
    CommitOutcome :=
  let risk0 := goToLower (goTrimSpace privacyRisk)
  let risk := if risk0 = "" then "low" else risk0
  if risk = "high" ∨ risk = "medium" then
    let a := goToLower (goTrimSpace answer)
    if a = "y" ∨ a = "yes" then
      CommitOutcome.committed true
        (commitBranchAction currentBranch rawBranchName message)
    else
      CommitOutcome.aborted
  else
    CommitOutcome.committed false
      (commitBranchAction currentBranch rawBranchName message)

/-- Counterexample to claim C6 as stated: the unrecognized non-empty
privacy risk "critical" is not normalized to Medium and is not gated — with
the non-affirmative answer "n" the flow still proceeds to stage and commit
(here also creating a branch) instead of aborting. -/
theorem runCommit_unrecognized_risk_not_gated :
    runCommitFlow "critical" "n" "main" "" "feat: add x" =
      CommitOutcome.committed false (some "feature/add-x") ∧
    runCommitFlow "critical" "n" "main" "" "feat: add x" ≠ CommitOutcome.aborted :=
  ⟨rfl, by decide⟩

/-- Claim C6 (amended): in the commit-analysis path an empty privacy risk
defaults to Low and proceeds to staging/committing without prompting; a
privacy risk of Medium or High (after trimming and lowercasing) requires
the explicit affirmative "y"/"yes" before any staging, commit or branch
creation, and on any other answer the flow aborts with the repository
unmutated; an unrecognized non-empty privacy risk value is kept as-is and,
being neither "medium" nor "high", also proceeds without prompting — it is
not normalized to Medium and not gated. -/
theorem runCommit_privacy_gating (pr ans cur mb msg : String) :
    (goToLower (goTrimSpace pr) = "" →
        runCommitFlow pr ans cur mb msg =
          CommitOutcome.committed false (commitBranchAction cur mb msg))
  ∧ ((goToLower (goTrimSpace pr) = "medium" ∨ goToLower (goTrimSpace pr) = "high") →
        (goToLower (goTrimSpace ans) = "y" ∨ goToLower (goTrimSpace ans) = "yes" →
          runCommitFlow pr ans cur mb msg =
            CommitOutcome.committed true (commitBranchAction cur mb msg))
      ∧ (¬(goToLower (goTrimSpace ans) = "y" ∨ goToLower (goTrimSpace ans) = "yes") →
          runCommitFlow pr ans cur mb msg = CommitOutcome.aborted))
  ∧ (goToLower (goTrimSpace pr) ≠ "" → goToLower (goTrimSpace pr) ≠ "medium" →
      goToLower (goTrimSpace pr) ≠ "high" →
        runCommitFlow pr ans cur mb msg =
          CommitOutcome.committed false (commitBranchAction cur mb msg)) := by
  refine ⟨?_, ?_, ?_⟩
  · intro h0
    simp [runCommitFlow, h0]
  · intro hmh
    constructor
    · intro hy
      have h0 : goToLower (goTrimSpace pr) ≠ "" := by
        rcases hmh with h | h <;> simp [h]
      rcases hmh with h | h <;> simp [runCommitFlow, h0, h, hy]
    · intro hn
      have h0 : goToLower (goTrimSpace pr) ≠ "" := by
        rcases hmh with h | h <;> simp [h]
      rcases hmh with h | h <;> simp [runCommitFlow, h0, h, hn]
  · intro h0 hm hh
    simp [runCommitFlow, h0, hm, hh]

/-- Witness for the amended C6: a Medium privacy risk with the answer
"no" aborts. -/
theorem runCommit_privacy_gating_witness :
    runCommitFlow " Medium " "no" "main" "" "feat: y" = CommitOutcome.aborted :=
  ((runCommit_privacy_gating " Medium " "no" "main" "" "feat: y").2.1
    (Or.inl (by decide))).2 (by decide)

/-! ## Well-formedness of derived slugs (claims C7/C8) -/

/-- Characters a slug may contain: lowercase ASCII letters, digits,
dashes. -/
def SlugChar (c : Char) : Prop :=
  ('a' ≤ c ∧ c ≤ 'z') ∨ ('0' ≤ c ∧ c ≤ '9') ∨ c = '-'

instance (c : Char) : Decidable (SlugChar c) := by
  unfold SlugChar
  infer_instance

/-- No two adjacent dashes. -/
def noConsecDash : List Char → Bool
  | [] => true
  | [_] => true
  | a :: b :: t => if a = '-' ∧ b = '-' then false else noConsecDash (b :: t)

lemma noConsecDash_cons (c : Char) (t : List Char) :
    noConsecDash (c :: t) = true ↔
      ¬(c = '-' ∧ t.head? = some '-') ∧ noConsecDash t = true := by
  cases t with
  | nil => simp [noConsecDash]
  | cons b t' =>
    simp only [noConsecDash, List.head?_cons]
    split_ifs with h <;> simp_all

lemma noConsecDash_tail (c : Char) (t : List Char)
    (h : noConsecDash (c :: t) = true) : noConsecDash t = true :=
  ((noConsecDash_cons c t).mp h).2

lemma head?_of_pre {p l : List Char} {c : Char} (h : p <+: l)
    (hc : p.head? = some c) : l.head? = some c := by
  obtain ⟨t, rfl⟩ := h
  cases p with
  | nil => simp [List.head?] at hc
  | cons a p' => simpa using hc

lemma noConsecDash_of_pre : ∀ (p l : List Char), p <+: l →
    noConsecDash l = true → noConsecDash p = true := by
  intro p
  induction p with
  | nil => intro l _ _; rfl
  | cons a p' ih =>
    intro l hp hl
    obtain ⟨l', rfl⟩ : ∃ l', l = a :: l' := by
      obtain ⟨t, rfl⟩ := hp
      exact ⟨p' ++ t, rfl⟩
    have hp' : p' <+: l' := (List.cons_prefix_cons.mp hp).2
    rw [noConsecDash_cons] at hl ⊢
    refine ⟨?_, ih l' hp' hl.2⟩
    rintro ⟨ha, hhd⟩
    exact hl.1 ⟨ha, head?_of_pre hp' hhd⟩

lemma noConsecDash_dropWhile (q : Char → Bool) :
    ∀ l, noConsecDash l = true → noConsecDash (l.dropWhile q) = true := by
  intro l
  induction l with
  | nil => intro h; simpa using h
  | cons c rest ih =>
    intro h
    simp only [List.dropWhile_cons]
    split_ifs with hq
    · exact ih (noConsecDash_tail c rest h)
    · exact h

lemma dropTrailingWhile_isPrefix (p : Char → Bool) :
    ∀ l, dropTrailingWhile p l <+: l := by
  intro l
  induction l with
  | nil => exact List.nil_prefix
  | cons x xs ih =>
    simp only [dropTrailingWhile]
    split_ifs with h
    · exact List.nil_prefix
    · exact List.cons_prefix_cons.mpr ⟨rfl, ih⟩

lemma dropTrailingWhile_getLast (p : Char → Bool) :
    ∀ l c, (dropTrailingWhile p l).getLast? = some c → p c = false := by
  intro l
  induction l with
  | nil => intro c hc; simp [dropTrailingWhile] at hc
  | cons x xs ih =>
    intro c hc
    simp only [dropTrailingWhile] at hc
    split_ifs at hc with h
    · simp at hc
    · rcases hr : dropTrailingWhile p xs with _ | ⟨y, ys⟩
      · rw [hr] at hc
        simp only [List.getLast?_singleton, Option.some_inj] at hc
        subst hc
        rw [hr] at h
        simpa using h
      · rw [hr, List.getLast?_cons_cons] at hc
        exact ih c (by rw [hr]; exact hc)

lemma head?_dropWhile (q : Char → Bool) :
    ∀ (l : List Char) (c : Char), (l.dropWhile q).head? = some c → q c = false := by
  intro l
  induction l with
  | nil => intro c hc; simp [List.head?] at hc
  | cons x xs ih =>
    intro c hc
    simp only [List.dropWhile_cons] at hc
    split_ifs at hc with h
    · exact ih c hc
    · simp only [List.head?_cons, Option.some_inj] at hc
      subst hc
      simpa using h

lemma slugifyCore_chars : ∀ (l : List Char) (flag : Bool),
    ∀ c ∈ slugifyCore l flag, SlugChar c := by
  intro l
  induction l with
  | nil => intro flag c hc; simp [slugifyCore] at hc
  | cons x xs ih =>
    intro flag c hc
    simp only [slugifyCore] at hc
    split_ifs at hc with h1 h2
    · rcases List.mem_cons.mp hc with rfl | hm
      · rcases h1 with h | h
        · exact Or.inl h
        · exact Or.inr (Or.inl h)
      · exact ih false c hm
    · exact ih true c hc
    · rcases List.mem_cons.mp hc with rfl | hm
      · exact Or.inr (Or.inr rfl)
      · exact ih true c hm

lemma slugifyCore_head_true : ∀ l : List Char,
    (slugifyCore l true).head? ≠ some '-' := by
  intro l
  induction l with
  | nil => simp [slugifyCore, List.head?]
  | cons x xs ih =>
    simp only [slugifyCore]
    split_ifs with h1
    · intro hc
      simp only [List.head?_cons, Option.some_inj] at hc
      subst hc
      exact absurd h1 (by decide)
    · exact ih

lemma noConsecDash_slugifyCore : ∀ (l : List Char) (flag : Bool),
    noConsecDash (slugifyCore l flag) = true := by
  intro l
  induction l with
  | nil => intro flag; rfl
  | cons x xs ih =>
    intro flag
    simp only [slugifyCore]
    split_ifs with h1 h2
    · rw [noConsecDash_cons]
      refine ⟨?_, ih false⟩
      rintro ⟨hx, -⟩
      subst hx
      exact absurd h1 (by decide)
    · exact ih true
    · rw [noConsecDash_cons]
      refine ⟨?_, ih true⟩
      rintro ⟨-, hhd⟩
      exact slugifyCore_head_true xs hhd

lemma slugify_chars (s : String) : ∀ c ∈ (slugify s).data, SlugChar c := by
  intro c hc
  have h1 : c ∈ (slugifyCore (goToLower (goTrimSpace s)).data false).dropWhile
      (· = '-') :=
    (dropTrailingWhile_isPrefix (· = '-') _).subset hc
  have h2 : c ∈ slugifyCore (goToLower (goTrimSpace s)).data false :=
    (List.dropWhile_sublist _).subset h1
  exact slugifyCore_chars _ false c h2

lemma slugify_noConsecDash (s : String) :
    noConsecDash (slugify s).data = true := by
  apply noConsecDash_of_pre _ _ (dropTrailingWhile_isPrefix _ _)
  exact noConsecDash_dropWhile _ _ (noConsecDash_slugifyCore _ false)

lemma slugify_head (s : String) : (slugify s).data.head? ≠ some '-' := by
  intro hc
  have h1 := head?_of_pre (dropTrailingWhile_isPrefix (· = '-') _) hc
  have h2 := head?_dropWhile (· = '-') _ '-' h1
  simp at h2

lemma slugify_last (s : String) : (slugify s).data.getLast? ≠ some '-' := by
  intro hc
  have h1 := dropTrailingWhile_getLast (· = '-') _ '-' hc
  simp at h1

set_option maxHeartbeats 1600000 in
lemma mapCommitTypeToBranchCategory_mem (t : String) :
    mapCommitTypeToBranchCategory t ∈
      ["feature", "fix", "refactor", "perf", "style", "test", "docs",
       "build", "ops", "chore", "revert"] := by
  unfold mapCommitTypeToBranchCategory
  split_ifs <;> decide

lemma deriveDescSlug_wellformed (ac : List Char) :
    (∀ c ∈ (deriveDescSlug ac).data, SlugChar c)
  ∧ noConsecDash (deriveDescSlug ac).data = true
  ∧ (deriveDescSlug ac).data.head? ≠ some '-'
  ∧ deriveDescSlug ac ≠ ""
  ∧ (deriveDescSlug ac).length ≤ 40
  ∧ ((deriveDescSlug ac).length < 40 →
        (deriveDescSlug ac).data.getLast? ≠ some '-') := by
  simp only [deriveDescSlug]
  split_ifs with htrunc hA hB
  · exact ⟨by decide, by decide, by decide, by decide, by decide,
      fun _ => by decide⟩
  · refine ⟨?_, ?_, ?_, hA, ?_, ?_⟩
    · intro c hcmem
      exact slugify_chars _ c ((List.take_sublist _ _).subset hcmem)
    · exact noConsecDash_of_pre _ _ (List.take_prefix _ _)
        (slugify_noConsecDash _)
    · intro hh
      exact slugify_head _ (head?_of_pre (List.take_prefix _ _) hh)
    · show (List.take 40 (slugify (goTrimSpace (⟨ac⟩ : String))).data).length ≤ 40
      rw [List.length_take]
      exact min_le_left _ _
    · intro hlt
      exfalso
      simp only [String.length, List.length_take] at hlt htrunc
      omega
  · exact ⟨by decide, by decide, by decide, by decide, by decide,
      fun _ => by decide⟩
  · refine ⟨slugify_chars _, slugify_noConsecDash _, slugify_head _, hB, ?_,
      fun _ => slugify_last _⟩
    omega

/-- Claim C7 (amended): every derived branch name's category belongs to the
set the code actually produces (feature, fix, refactor, perf, style, test,
docs, build, ops, chore, revert — with "style" in place of the claimed
"hotfix", which is never produced); the slug always consists only of
lowercase alphanumerics and dashes, contains no consecutive dashes and
never starts with a dash; a slug shorter than 40 characters never ends in
a dash; and when the header is empty or contains a colon the slug is
non-empty (falling back to "changes") and at most 40 characters — though
the 40-character truncation can leave a trailing dash, and in the
colon-free path the slug is `slugify header` verbatim, possibly empty or
longer than 40 characters. -/
theorem deriveBranchParts_wellformed (header : String) :
    (deriveBranchParts header).1 ∈
      ["feature", "fix", "refactor", "perf", "style", "test", "docs",
       "build", "ops", "chore", "revert"]
  ∧ (∀ c ∈ (deriveBranchParts header).2.data, SlugChar c)
  ∧ noConsecDash (deriveBranchParts header).2.data = true
  ∧ (deriveBranchParts header).2.data.head? ≠ some '-'
  ∧ ((deriveBranchParts header).2.length < 40 →
        (deriveBranchParts header).2.data.getLast? ≠ some '-')
  ∧ ((goTrimSpace header = "" ∨
        splitAtFirst ':' (goTrimSpace header).data ≠ none) →
        (deriveBranchParts header).2 ≠ "" ∧
          (deriveBranchParts header).2.length ≤ 40) := by
  by_cases h0 : goTrimSpace header = ""
  · have hparts : deriveBranchParts header = ("feature", "changes") := by
      simp [deriveBranchParts, h0]
    rw [hparts]
    exact ⟨by decide, by decide, by decide, by decide, fun _ => by decide,
      fun _ => ⟨by decide, by decide⟩⟩
  · rcases hsplit : splitAtFirst ':' (goTrimSpace header).data with _ | ⟨bc, ac⟩
    · have hparts : deriveBranchParts header =
          ("feature", slugify (goTrimSpace header)) := by
        simp [deriveBranchParts, h0, hsplit]
      rw [hparts]
      refine ⟨List.mem_cons_self _ _, slugify_chars _, slugify_noConsecDash _,
        slugify_head _, fun _ => slugify_last _, ?_⟩
      intro hcase
      rcases hcase with hc | hc
      · exact absurd hc h0
      · exact absurd rfl hc
    · have hparts : deriveBranchParts header =
          (mapCommitTypeToBranchCategory (deriveTypePart bc),
            deriveDescSlug ac) := by
        simp [deriveBranchParts, h0, hsplit]
      rw [hparts]
      obtain ⟨w1, w2, w3, w4, w5, w6⟩ := deriveDescSlug_wellformed ac
      exact ⟨mapCommitTypeToBranchCategory_mem _, w1, w2, w3, w6,
        fun _ => ⟨w4, w5⟩⟩

/-- Witness for the amended C7 at a concrete conventional-commit header. -/
theorem deriveBranchParts_wellformed_witness :
    (deriveBranchParts "feat(auth): add login flow").2 ≠ "" ∧
      (deriveBranchParts "feat(auth): add login flow").2.length ≤ 40 :=
  (deriveBranchParts_wellformed "feat(auth): add login flow").2.2.2.2.2
    (Or.inr (by decide))

/-- Counterexample to claim C7 as stated: the category "style" (from a
`style:` header) is outside the claimed category set, which lists "hotfix"
instead — a value the code never produces; a colon-free header made of
punctuation yields an empty slug instead of the "changes" fallback; a
colon-free header longer than 40 characters is not length-capped; and the
40-character cap on the colon path can leave a trailing dash. -/
theorem deriveBranchName_not_wellformed :
    deriveBranchNameFromCommit "style: polish ui" = "style/polish-ui"
  ∧ "style" ∉ ["feature", "fix", "hotfix", "refactor", "docs", "chore",
       "test", "perf", "ops", "build", "revert"]
  ∧ deriveBranchNameFromCommit "..." = "feature/"
  ∧ deriveBranchNameFromCommit "aaaaaaaaaaaaaaaaaaaaaaaaaaaaaaaaaaaaaaaaa" =
      "feature/aaaaaaaaaaaaaaaaaaaaaaaaaaaaaaaaaaaaaaaaa"
  ∧ deriveBranchNameFromCommit
        "fix: aaaaaaaaaaaaaaaaaaaaaaaaaaaaaaaaaaaaaaa bcd" =
      "fix/aaaaaaaaaaaaaaaaaaaaaaaaaaaaaaaaaaaaaaa-" :=
  ⟨rfl, by decide, rfl, rfl, rfl⟩

end SmartGit
